import Mathlib

/-!
# Voxel sandbox (Project 3): world data structure and placement ray

A shallow embedding of `Block.h`, `World.cpp` and the block-editing part of
`Game.cpp`, followed by theorems about block existence, addition, removal,
the placement ray march, the selected block type and terrain generation.
-/

/-! ## Block.h -/

/-- The integer vector `glm::ivec3`; `operator==` is componentwise equality. -/
structure ivec3 where
  x : Int
  y : Int
  z : Int
deriving DecidableEq, Repr

/-- The enumeration `BlockType`, kept as its underlying integer because
`Game::mouseButtonCallback` produces it with `static_cast<BlockType>(int)`. -/
abbrev BlockType := Int

def DIRT : BlockType := 0
def GRASS : BlockType := 1
def LEAVES : BlockType := 2
def SAND : BlockType := 3
def STONE : BlockType := 4
def WOOD : BlockType := 5

/-- The record `struct Block { glm::ivec3 position; BlockType type; }`. -/
structure Block where
  position : ivec3
  type : BlockType
deriving DecidableEq, Repr

/-- The values of the counter of a loop `for (int i = lo; i < lo + n; i++)`. -/
def intRange (lo : Int) (n : Nat) : List Int :=
  (List.range n).map (fun (k : Nat) => lo + (k : Int))

/-! ## World.h / World.cpp -/

/-- The class `World`: its only member is `std::vector<Block> blocks`. -/
structure World where
  blocks : List Block
deriving DecidableEq, Repr

namespace World

/-- The constructor `World::World() {}`: an empty block vector. -/
def empty : World := ⟨[]⟩

/-- The query `World::blockExists`: linear scan, true at the first block whose
position equals `pos`. -/
def blockExists (w : World) (pos : ivec3) : Bool :=
  w.blocks.any (fun b => b.position == pos)

/-- The method `World::addBlock`: `push_back` only when no block is at `pos`. -/
def addBlock (w : World) (pos : ivec3) (type : BlockType) : World :=
  if !w.blockExists pos then ⟨w.blocks ++ [⟨pos, type⟩]⟩ else w

/-- The method `World::removeBlock`: erase the first block whose position
equals `pos`, then `break`. -/
def removeBlock (w : World) (pos : ivec3) : World :=
  ⟨w.blocks.eraseP (fun b => b.position == pos)⟩

/-- The texture indices that `World::render` passes to `Renderer::drawCube`,
one per block in list order: `static_cast<int>(b.type)`. -/
def render (w : World) : List Int :=
  w.blocks.map (fun b => b.type)

/-- The loop `for (int y = -1; y <= h; y++)` of `generateTerrain`: every
column block is appended with `push_back`, without an existence test. -/
def pushColumn (w : World) (x h z : Int) : World :=
  (intRange (-1) (h + 2).toNat).foldl
    (fun w y => ⟨w.blocks ++ [⟨⟨x, y, z⟩, if y = -1 then SAND else if y = h then GRASS else DIRT⟩]⟩) w

/-- The tree of `generateTerrain`: four trunk blocks, then the leaves, all
through `addBlock`. -/
def addTree (w : World) (x h z : Int) : World :=
  let w1 := (intRange 1 4).foldl (fun w ty => w.addBlock ⟨x, h + ty, z⟩ WOOD) w
  (intRange (-2) 5).foldl (fun w dx =>
    (intRange 3 3).foldl (fun w dy =>
      (intRange (-2) 5).foldl (fun w dz =>
        if dx.natAbs + (dy - 4).natAbs + dz.natAbs < 5 then
          w.addBlock ⟨x + dx, h + dy, z + dz⟩ LEAVES
        else w) w) w) w1

/-- The body of the two outer loops of `generateTerrain` for column `(x, z)`.
`rawH x z` is `static_cast<int>((std::sin(x * 0.5f) + std::cos(z * 0.5f)) *
2.0f)` and `tree x z` is the outcome of `treeDist(rng) == 0` for this column;
both come from outside the repository (the C library and the random device). -/
def genColumn (rawH : Int → Int → Int) (tree : Int → Int → Bool) (w : World) (x z : Int) : World :=
  let h := if rawH x z < -1 then -1 else rawH x z
  let w1 := w.pushColumn x h z
  if 0 ≤ h ∧ tree x z = true then w1.addTree x h z else w1

/-- The method `World::generateTerrain`, with `worldSize = 40`. -/
def generateTerrain (w : World) (rawH : Int → Int → Int) (tree : Int → Int → Bool) : World :=
  (intRange (-20) 40).foldl
    (fun w x => (intRange (-20) 40).foldl (fun w z => genColumn rawH tree w x z) w) w

/-- The number of blocks of the list located at `pos`. -/
def countAt (w : World) (pos : ivec3) : Nat :=
  w.blocks.countP (fun b => b.position == pos)

/-- Every block of the list has one of the six block types `0..5`. -/
def TypesValid (w : World) : Prop :=
  ∀ b ∈ w.blocks, 0 ≤ b.type ∧ b.type ≤ 5

/-- No two blocks of the list share a position. -/
def NoDupPositions (w : World) : Prop :=
  (w.blocks.map Block.position).Nodup

instance (w : World) : Decidable w.NoDupPositions := by
  unfold NoDupPositions; infer_instance

end World

/-! ## Single-precision arithmetic used by the placement ray

`glm::vec3` holds three `float`s.  A binary32 value is kept as an integer
multiple of `2^-149` (the spacing of the smallest subnormals, of which every
finite binary32 number is a multiple), so that addition, multiplication and
rounding are exact integer computations (`F32.roundMag_nearest_even` states
the rounding rule).  The sign of zero is not tracked: no operation used here
can observe it. -/

/-- A binary32 value: the finite number `n * 2^-149`, an infinity, or a NaN. -/
inductive F32 where
  | fin (n : Int)
  | inf (neg : Bool)
  | nan
deriving DecidableEq, Repr

namespace F32

/-- The number of binary digits of `m`, by repeated halving; `fuel` bounds the
number of halvings. -/
def bitLengthAux : Nat → Nat → Nat
  | 0, _ => 0
  | fuel + 1, m => if m = 0 then 0 else bitLengthAux fuel (m / 2) + 1

/-- The number of binary digits of `m` (0 for 0). -/
def bitLength (m : Nat) : Nat := bitLengthAux m m

/-- Round the exact magnitude `m * 2^-(149+sh)` to the nearest binary32
magnitude, ties to even (24 significant bits, subnormal spacing `2^-149`);
the result is in units of `2^-149`. -/
def roundMag (m sh : Nat) : Nat :=
  let d := max (bitLength m - 24) sh
  let q := m >>> d
  let r := m % 2 ^ d
  let up := decide (2 ^ d < 2 * r) || (decide (2 * r = 2 ^ d) && decide (q % 2 = 1))
  (if up then q + 1 else q) <<< (d - sh)

/-- The binary32 result of an operation whose exact value is
`± m * 2^-(149+sh)`; a rounded magnitude of `2^128` or more overflows. -/
def ofExact (neg : Bool) (m sh : Nat) : F32 :=
  let n := roundMag m sh
  if 278 ≤ bitLength n then inf neg else fin (if neg then - (n : Int) else n)

/-- The operator `float + float`. -/
def add : F32 → F32 → F32
  | fin a, fin b => ofExact (decide (a + b < 0)) (a + b).natAbs 0
  | fin _, inf s => inf s
  | inf s, fin _ => inf s
  | inf s, inf t => if s = t then inf s else nan
  | _, _ => nan

/-- The operator `float * float`. -/
def mul : F32 → F32 → F32
  | fin a, fin b => ofExact (decide (a * b < 0)) (a * b).natAbs 149
  | fin a, inf s => if a = 0 then nan else inf (decide (a < 0) != s)
  | inf s, fin b => if b = 0 then nan else inf (s != decide (b < 0))
  | inf s, inf t => inf (s != t)
  | _, _ => nan

/-- The comparison `float <= float` (false when either side is a NaN). -/
def le : F32 → F32 → Bool
  | fin a, fin b => decide (a ≤ b)
  | fin _, inf s => !s
  | inf s, fin _ => s
  | inf s, inf t => s || !t
  | _, _ => false

/-- The function `std::round` on `float`, which `glm::round` applies to each
component: nearest integer, halfway cases away from zero. -/
def round : F32 → F32
  | fin n =>
    let m := n.natAbs
    let q := if 2 ^ 148 ≤ m % 2 ^ 149 then m >>> 149 + 1 else m >>> 149
    fin (if n < 0 then - ((q <<< 149 : Nat) : Int) else ((q <<< 149 : Nat) : Int))
  | x => x

/-- The conversion `static_cast<int>(float)` performed by the `glm::ivec3`
converting constructor: truncation toward zero.  For a value outside the range
of `int` (or an infinity or NaN) the conversion is undefined in C++; the model
returns `INT_MIN`, the result of the x86 conversion instruction. -/
def toInt : F32 → Int
  | fin n =>
    let v := n.tdiv (2 ^ 149)
    if -2 ^ 31 ≤ v ∧ v < 2 ^ 31 then v else -2 ^ 31
  | _ => -2 ^ 31

/-- The binary32 value of an integer that needs no rounding. -/
def ofInt (i : Int) : F32 := fin (i * 2 ^ 149)

end F32

/-- The float vector `glm::vec3`. -/
structure vec3 where
  x : F32
  y : F32
  z : F32
deriving DecidableEq, Repr

namespace vec3

/-- The operator `vec3 + vec3`. -/
def add (a b : vec3) : vec3 := ⟨F32.add a.x b.x, F32.add a.y b.y, F32.add a.z b.z⟩

/-- The operator `vec3 * float`. -/
def scale (v : vec3) (s : F32) : vec3 := ⟨F32.mul v.x s, F32.mul v.y s, F32.mul v.z s⟩

/-- The function `glm::round` on a `vec3`. -/
def round (v : vec3) : vec3 := ⟨F32.round v.x, F32.round v.y, F32.round v.z⟩

/-- The implicit conversion from `glm::vec3` to `glm::ivec3`. -/
def toIvec3 (v : vec3) : ivec3 := ⟨F32.toInt v.x, F32.toInt v.y, F32.toInt v.z⟩

end vec3

/-! ## Camera.h -/

/-- The part of class `Camera` read by the placement code: `getPosition()`
returns `Position` and `getFront()` returns `Front`. -/
structure Camera where
  Position : vec3
  Front : vec3
deriving DecidableEq, Repr

/-! ## Game.h / Game.cpp -/

/-- The class `Game` without its window, renderer and frame timers. -/
structure Game where
  camera : Camera
  world : World
  selectedType : Int
deriving DecidableEq, Repr

/-- The constant `GLFW_PRESS` of the GLFW header. -/
def GLFW_PRESS : Int := 1
/-- The constant `GLFW_MOUSE_BUTTON_LEFT` of the GLFW header. -/
def GLFW_MOUSE_BUTTON_LEFT : Int := 0
/-- The constant `GLFW_MOUSE_BUTTON_RIGHT` of the GLFW header. -/
def GLFW_MOUSE_BUTTON_RIGHT : Int := 1
/-- The constant `GLFW_KEY_1` of the GLFW header. -/
def GLFW_KEY_1 : Int := 49

/-- The literal `0.1f`: `13421773 * 2^-27`, the binary32 number nearest 0.1. -/
def step : F32 := F32.fin (13421773 * 2 ^ 122)

/-- The literal `8.0f`. -/
def maxD : F32 := F32.ofInt 8

/-- An iteration bound for the models of the two `for (float t = step;
t <= maxD; t += step)` loops.  The loops leave through their own test after 80
iterations (`loopTs_length`), so every bound above 80 gives the same result
(`loopTs_fuel`, `marchLoop_fuel`). -/
def marchFuel : Nat := 100

/-- The values taken by the loop variable `t` in `for (float t = step;
t <= maxD; t += step)` when the body never breaks, starting from `t`. -/
def loopTs : Nat → F32 → List F32
  | 0, _ => []
  | fuel + 1, t => if F32.le t maxD then t :: loopTs fuel (F32.add t step) else []

namespace Game

/-- The expression `glm::round(pos + dir * t)` converted to `glm::ivec3`, with
`pos = camera.getPosition()` and `dir = camera.getFront()`. -/
def cellAt (g : Game) (t : F32) : ivec3 :=
  ((g.camera.Position.add (g.camera.Front.scale t)).round).toIvec3

/-- The cells of all samples of the ray march, in the order of the loop. -/
def sampleCells (g : Game) : List ivec3 :=
  (loopTs marchFuel step).map g.cellAt

/-- The loop of `Game::computePlacement`, from loop variable `t` and current
`lastEmpty`; the result is the value returned by the function. -/
def placementLoop (g : Game) : Nat → F32 → ivec3 → ivec3
  | 0, _, lastEmpty => lastEmpty
  | fuel + 1, t, lastEmpty =>
    if F32.le t maxD then
      let cell := g.cellAt t
      if g.world.blockExists cell then lastEmpty
      else placementLoop g fuel (F32.add t step) cell
    else lastEmpty

/-- The function `Game::computePlacement`. -/
def computePlacement (g : Game) : ivec3 :=
  g.placementLoop marchFuel step (g.cellAt step)

/-- The locals of `Game::mouseButtonCallback` after its loop.  The pair `hit`,
`hitBlock` is one option: `none` is `hit == false` (with `hitBlock` never
assigned), `some c` is `hit == true` with `hitBlock == c`. -/
structure March where
  hit : Option ivec3
  lastEmpty : ivec3
deriving DecidableEq, Repr

/-- The loop of `Game::mouseButtonCallback`, from loop variable `t` and current
`lastEmpty`. -/
def marchLoop (g : Game) : Nat → F32 → ivec3 → March
  | 0, _, lastEmpty => ⟨none, lastEmpty⟩
  | fuel + 1, t, lastEmpty =>
    if F32.le t maxD then
      let cell := g.cellAt t
      if g.world.blockExists cell then ⟨some cell, lastEmpty⟩
      else marchLoop g fuel (F32.add t step) cell
    else ⟨none, lastEmpty⟩

/-- The ray march of `Game::mouseButtonCallback`: initialisation of
`lastEmpty` followed by the loop. -/
def rayMarch (g : Game) : March :=
  g.marchLoop marchFuel step (g.cellAt step)

/-- The cell at which a right click calls `addBlock`:
`hit ? lastEmpty : glm::round(pos + dir * maxD)`. -/
def place (g : Game) : ivec3 :=
  match g.rayMarch.hit with
  | some _ => g.rayMarch.lastEmpty
  | none => g.cellAt maxD

/-- The callback `Game::mouseButtonCallback` (the user pointer `g` is the game,
never null once the constructor has run). -/
def mouseButtonCallback (g : Game) (button action : Int) : Game :=
  if action ≠ GLFW_PRESS then g
  else
    let m := g.rayMarch
    let w1 :=
      match m.hit with
      | some hitBlock => if button = GLFW_MOUSE_BUTTON_LEFT then g.world.removeBlock hitBlock else g.world
      | none => g.world
    let w2 :=
      if button = GLFW_MOUSE_BUTTON_RIGHT then w1.addBlock g.place g.selectedType else w1
    { g with world := w2 }

/-- The method `Game::processInput`.  `pressed k` is `glfwGetKey(window, k) ==
GLFW_PRESS`; `moved` is the camera after the six `camera.processKeyboard`
calls, which change nothing but the camera. -/
def processInput (g : Game) (pressed : Int → Bool) (moved : Camera) : Game :=
  (intRange 0 6).foldl
    (fun g i => if pressed (GLFW_KEY_1 + i) then { g with selectedType := i } else g)
    { g with camera := moved }

/-- The callback `Game::cursorPosCallback`: it changes nothing but the camera;
`turned` is the camera after `processMouseMovement`. -/
def cursorPosCallback (g : Game) (turned : Camera) : Game :=
  { g with camera := turned }

/-- The constructor `Game::Game`: the camera at `(0, 20, 45)`, the generated
terrain, `selectedType(GRASS)`.  `front` is the `Front` vector left by
`Camera::updateCameraVectors` (single-precision sines and cosines of the
initial yaw and pitch). -/
def new (front : vec3) (rawH : Int → Int → Int) (tree : Int → Int → Bool) : Game :=
  { camera := ⟨⟨F32.ofInt 0, F32.ofInt 20, F32.ofInt 45⟩, front⟩
    world := World.empty.generateTerrain rawH tree
    selectedType := GRASS }

/-- The game states reachable from the constructor by the input handlers. -/
inductive Reachable (front : vec3) (rawH : Int → Int → Int) (tree : Int → Int → Bool) : Game → Prop
  | init : Reachable front rawH tree (Game.new front rawH tree)
  | input (g : Game) (pressed : Int → Bool) (moved : Camera) :
      Reachable front rawH tree g → Reachable front rawH tree (g.processInput pressed moved)
  | mouseButton (g : Game) (button action : Int) :
      Reachable front rawH tree g → Reachable front rawH tree (g.mouseButtonCallback button action)
  | cursorPos (g : Game) (turned : Camera) :
      Reachable front rawH tree g → Reachable front rawH tree (g.cursorPosCallback turned)

end Game

/-! ## Concrete states used in the evaluations below -/

/-- The `Front` vector of a camera with the constructor's `Yaw = -90`,
`Pitch = 0`: `(cosf(-1.5707964f), 0, -1) = (-4.371139e-8, 0, -1)`, the first
component being `-12303662 * 2^-48`. -/
def defaultFront : vec3 := ⟨F32.fin (-12303662 * 2 ^ 101), F32.ofInt 0, F32.ofInt (-1)⟩

/-- A game whose camera is at the constructor's position `(0, 20, 45)` and
looks along the default front, in a world whose only block is at the cell
`(0, 20, 45)` that contains the eye. -/
def eyeInsideBlock : Game :=
  { camera := ⟨⟨F32.ofInt 0, F32.ofInt 20, F32.ofInt 45⟩, defaultFront⟩
    world := ⟨[⟨⟨0, 20, 45⟩, GRASS⟩]⟩
    selectedType := GRASS }

/-- A game whose camera is at `(0, 20, -7.5)` and looks along the default
front, with no block anywhere near the ray (an empty world). -/
def openSky : Game :=
  { camera := ⟨⟨F32.ofInt 0, F32.ofInt 20, F32.fin (-15 * 2 ^ 148)⟩, defaultFront⟩
    world := World.empty
    selectedType := GRASS }

/-- The state after the constructor (flat terrain at height -1, no tree) and
one `processInput` during which only the key `3` (code 51) is pressed and the
camera does not move. -/
def keyThreePressed : Game :=
  (Game.new defaultFront (fun _ _ => -1) (fun _ _ => false)).processInput
    (fun k => decide (k = 51)) ⟨⟨F32.ofInt 0, F32.ofInt 20, F32.ofInt 45⟩, defaultFront⟩

/-- A height map with column `(-13, -2)` at height 0 and column `(-11, -1)` at
height 3, as computed by the height expression there, and flat sand (height
-1) everywhere else. -/
def twoColumnHeights : Int → Int → Int :=
  fun x z => if x = -13 ∧ z = -2 then 0 else if x = -11 ∧ z = -1 then 3 else -1

/-- The outcome of the random draws in which the only tree is drawn at column
`(-13, -2)`. -/
def oneTree : Int → Int → Bool :=
  fun x z => decide (x = -13 ∧ z = -2)

/-! ## Theorems: World -/

namespace World

theorem blockExists_iff (w : World) (pos : ivec3) :
    w.blockExists pos = true ↔ ∃ b ∈ w.blocks, b.position = pos := by
  simp [blockExists]

theorem blockExists_false_iff (w : World) (pos : ivec3) :
    w.blockExists pos = false ↔ ∀ b ∈ w.blocks, b.position ≠ pos := by
  simp [blockExists]

theorem removeBlock_blockExists_ne (w : World) (p q : ivec3) (h : q ≠ p) :
    (w.removeBlock p).blockExists q = w.blockExists q := by
  rw [Bool.eq_iff_iff, blockExists_iff, blockExists_iff]
  constructor
  · rintro ⟨b, hb, rfl⟩
    exact ⟨b, List.mem_of_mem_eraseP hb, rfl⟩
  · rintro ⟨b, hb, rfl⟩
    refine ⟨b, ?_, rfl⟩
    exact (List.mem_eraseP_of_neg (by simpa using h)).2 hb


theorem any_eraseP_iff_two_le_countP (l : List Block) (p : ivec3) :
    (l.eraseP (fun b => b.position == p)).any (fun b => b.position == p) = true ↔
      2 ≤ l.countP (fun b => b.position == p) := by
  induction l with
  | nil => simp
  | cons a l ih =>
    by_cases ha : a.position = p
    · rw [List.eraseP_cons_of_pos (by simpa using ha), List.countP_cons_of_pos _ _ (by simpa using ha)]
      have h1 : l.any (fun b => b.position == p) = true ↔
          0 < l.countP (fun b => b.position == p) := by
        rw [List.countP_pos_iff]
        simp
      rw [h1]
      omega
    · rw [List.eraseP_cons_of_neg (by simpa using ha),
        List.countP_cons_of_neg _ _ (by simpa using ha), List.any_cons]
      have hb : (a.position == p) = false := by simpa using ha
      rw [hb, Bool.false_or]
      exact ih

theorem blockExists_removeBlock_self (w : World) (p : ivec3) :
    (w.removeBlock p).blockExists p = true ↔ 2 ≤ w.countAt p :=
  any_eraseP_iff_two_le_countP w.blocks p

theorem countAt_le_one_of_noDup (w : World) (p : ivec3) (h : w.NoDupPositions) :
    w.countAt p ≤ 1 := by
  unfold countAt
  have h1 : (w.blocks.map Block.position).count p ≤ 1 := List.nodup_iff_count_le_one.1 h p
  have h2 : (w.blocks.map Block.position).count p = w.blocks.countP (fun b => b.position == p) := by
    rw [List.count, List.countP_map]
    rfl
  omega


theorem addBlock_blocks (w : World) (p : ivec3) (t : BlockType) :
    (w.addBlock p t).blocks = if w.blockExists p then w.blocks else w.blocks ++ [⟨p, t⟩] := by
  unfold addBlock
  cases w.blockExists p <;> simp

theorem blockExists_addBlock (w : World) (p q : ivec3) (t : BlockType) :
    (w.addBlock p t).blockExists q = (w.blockExists q || decide (p = q)) := by
  unfold addBlock
  cases hp : w.blockExists p
  · by_cases hq : p = q <;> simp [blockExists, hq]
  · by_cases hq : p = q
    · subst hq; simp [hp]
    · simp [hq]

/-- C2 (amended): for every world and position `p`, after `removeBlock(p)` the
query `blockExists(p)` is false exactly when at most one block of the world was
at `p`; so it is false in every world in which no two blocks share a
position; and for every world and every `q` different from `p`,
`blockExists(q)` is unchanged by the call. -/
theorem removeBlock_clears_single (w : World) (p : ivec3) :
    ((w.removeBlock p).blockExists p = false ↔ w.countAt p ≤ 1) ∧
      (w.NoDupPositions → (w.removeBlock p).blockExists p = false) ∧
      ∀ q, q ≠ p → (w.removeBlock p).blockExists q = w.blockExists q := by
  have hiff : (w.removeBlock p).blockExists p = false ↔ w.countAt p ≤ 1 := by
    rw [← Bool.not_eq_true, blockExists_removeBlock_self]
    omega
  exact ⟨hiff, fun h => hiff.2 (countAt_le_one_of_noDup w p h),
    fun q hq => removeBlock_blockExists_ne w p q hq⟩

/-- Witness for C2 (amended): a world with one block at the removed position
and one block elsewhere. -/
theorem removeBlock_clears_single_witness :
    (World.mk [⟨⟨0, 0, 0⟩, DIRT⟩, ⟨⟨1, 0, 0⟩, GRASS⟩]).countAt ⟨0, 0, 0⟩ ≤ 1 ∧
      (World.mk [⟨⟨0, 0, 0⟩, DIRT⟩, ⟨⟨1, 0, 0⟩, GRASS⟩]).NoDupPositions ∧
      ((World.mk [⟨⟨0, 0, 0⟩, DIRT⟩, ⟨⟨1, 0, 0⟩, GRASS⟩]).removeBlock ⟨0, 0, 0⟩).blockExists
          ⟨0, 0, 0⟩ = false ∧
      ∀ q, q ≠ (⟨0, 0, 0⟩ : ivec3) →
        ((World.mk [⟨⟨0, 0, 0⟩, DIRT⟩, ⟨⟨1, 0, 0⟩, GRASS⟩]).removeBlock ⟨0, 0, 0⟩).blockExists q =
          (World.mk [⟨⟨0, 0, 0⟩, DIRT⟩, ⟨⟨1, 0, 0⟩, GRASS⟩]).blockExists q :=
  ⟨by decide, by decide,
    (removeBlock_clears_single (World.mk [⟨⟨0, 0, 0⟩, DIRT⟩, ⟨⟨1, 0, 0⟩, GRASS⟩])
      ⟨0, 0, 0⟩).2.1 (by decide),
    (removeBlock_clears_single (World.mk [⟨⟨0, 0, 0⟩, DIRT⟩, ⟨⟨1, 0, 0⟩, GRASS⟩])
      ⟨0, 0, 0⟩).2.2⟩

/-- C3: after `addBlock(p, t)` the query `blockExists(p)` is true and
`blockExists(q)` is unchanged for every `q` different from `p`; if `p` was
unoccupied the new block list is the old list with the one block `(p, t)`
appended, and if `p` was occupied the block list is unchanged. -/
theorem addBlock_spec (w : World) (p : ivec3) (t : BlockType) :
    (w.addBlock p t).blockExists p = true ∧
      (∀ q, q ≠ p → (w.addBlock p t).blockExists q = w.blockExists q) ∧
      ((w.blockExists p = false ∧ (w.addBlock p t).blocks = w.blocks ++ [⟨p, t⟩]) ∨
        (w.blockExists p = true ∧ (w.addBlock p t).blocks = w.blocks)) := by
  refine ⟨by simp [blockExists_addBlock], ?_, ?_⟩
  · intro q hq
    have : ¬ p = q := fun e => hq e.symm
    simp [blockExists_addBlock, this]
  · rw [addBlock_blocks]
    cases w.blockExists p <;> simp

theorem addBlock_noDup (w : World) (p : ivec3) (t : BlockType) (h : w.NoDupPositions) :
    (w.addBlock p t).NoDupPositions := by
  unfold NoDupPositions at *
  rw [addBlock_blocks]
  cases hp : w.blockExists p
  · rw [blockExists_false_iff] at hp
    simp only [Bool.false_eq_true, if_false, List.map_append, List.map_cons, List.map_nil]
    refine List.Nodup.append h (List.nodup_singleton p) ?_
    intro a ha hb
    rw [List.mem_singleton] at hb
    subst hb
    obtain ⟨b, hb, hba⟩ := List.mem_map.1 ha
    exact hp b hb hba
  · simpa using h

theorem removeBlock_noDup (w : World) (p : ivec3) (h : w.NoDupPositions) :
    (w.removeBlock p).NoDupPositions := by
  unfold NoDupPositions at *
  exact List.Nodup.sublist ((List.eraseP_sublist w.blocks).map Block.position) h

/-- C9: the predicate "no two blocks share a position" holds for the empty
world and is preserved by `addBlock(p, t)` and by `removeBlock(p)`. -/
theorem noDupPositions_invariant :
    World.empty.NoDupPositions ∧
      ∀ w : World, w.NoDupPositions → ∀ (p : ivec3) (t : BlockType),
        (w.addBlock p t).NoDupPositions ∧ (w.removeBlock p).NoDupPositions :=
  ⟨by decide, fun w h p t => ⟨addBlock_noDup w p t h, removeBlock_noDup w p h⟩⟩

/-- Witness for C9: the invariant carried from a one-block world to the worlds
after an addition and after a removal. -/
theorem noDupPositions_invariant_witness :
    (World.mk [⟨⟨0, 0, 0⟩, DIRT⟩]).NoDupPositions ∧
      ((World.mk [⟨⟨0, 0, 0⟩, DIRT⟩]).addBlock ⟨1, 2, 3⟩ STONE).NoDupPositions ∧
      ((World.mk [⟨⟨0, 0, 0⟩, DIRT⟩]).removeBlock ⟨1, 2, 3⟩).NoDupPositions :=
  ⟨by decide, noDupPositions_invariant.2 _ (by decide) ⟨1, 2, 3⟩ STONE⟩

end World

/-! ## Theorems: checks of the single-precision model -/

namespace F32

theorem lt_two_pow_bitLengthAux : ∀ (fuel m : Nat), m ≤ fuel → m < 2 ^ bitLengthAux fuel m := by
  intro fuel
  induction fuel with
  | zero =>
    intro m hm
    have : m = 0 := by omega
    subst this
    simp [bitLengthAux]
  | succ fuel ih =>
    intro m hm
    unfold bitLengthAux
    by_cases h0 : m = 0
    · simp [h0]
    · rw [if_neg h0]
      have h1 := ih (m / 2) (by omega)
      rw [Nat.pow_succ]
      omega

theorem lt_two_pow_bitLength (m : Nat) : m < 2 ^ bitLength m :=
  lt_two_pow_bitLengthAux m m (Nat.le_refl m)

/-- The rounding of the model is round-to-nearest, ties to even, onto the
binary32 grid: with `d = max (bitLength m - 24) sh` the result is `q * 2^d` (in
the units of `m`) for a significand `q` of at most 24 bits (or `2^24`, the next
power of two), it differs from `m` by at most half the grid spacing `2^d`, and
in a tie `q` is even. -/
theorem roundMag_nearest_even (m sh : Nat) :
    ∃ q : Nat, roundMag m sh = q * 2 ^ (max (bitLength m - 24) sh - sh) ∧ q ≤ 2 ^ 24 ∧
      2 * (q * 2 ^ max (bitLength m - 24) sh) ≤ 2 * m + 2 ^ max (bitLength m - 24) sh ∧
      2 * m ≤ 2 * (q * 2 ^ max (bitLength m - 24) sh) + 2 ^ max (bitLength m - 24) sh ∧
      (2 * (m % 2 ^ max (bitLength m - 24) sh) = 2 ^ max (bitLength m - 24) sh → q % 2 = 0) := by
  unfold roundMag
  dsimp only
  generalize hd : max (bitLength m - 24) sh = d
  have hP : 0 < 2 ^ d := Nat.two_pow_pos d
  have hdiv : 2 ^ d * (m / 2 ^ d) + m % 2 ^ d = m := Nat.div_add_mod m (2 ^ d)
  have hr : m % 2 ^ d < 2 ^ d := Nat.mod_lt m hP
  have hq : m / 2 ^ d < 2 ^ 24 := by
    rw [Nat.div_lt_iff_lt_mul hP, ← Nat.pow_add]
    refine Nat.lt_of_lt_of_le (lt_two_pow_bitLength m) (Nat.pow_le_pow_right (by decide) ?_)
    have : bitLength m - 24 ≤ d := by rw [← hd]; exact Nat.le_max_left _ _
    omega
  rw [Nat.shiftRight_eq_div_pow]
  generalize hqd : m / 2 ^ d = q at *
  generalize hrd : m % 2 ^ d = r at *
  generalize 2 ^ d = P at *
  by_cases hup : (decide (P < 2 * r) || (decide (2 * r = P) && decide (q % 2 = 1))) = true
  · rw [if_pos hup]
    refine ⟨q + 1, by rw [Nat.shiftLeft_eq], by omega, ?_, ?_, ?_⟩
    · have e : (q + 1) * P = P * q + P := by ring
      simp only [Bool.or_eq_true, Bool.and_eq_true, decide_eq_true_eq] at hup
      rw [e]; omega
    · have e : (q + 1) * P = P * q + P := by ring
      rw [e]; omega
    · intro ht
      simp only [Bool.or_eq_true, Bool.and_eq_true, decide_eq_true_eq] at hup
      omega
  · rw [if_neg hup]
    simp only [Bool.or_eq_true, Bool.and_eq_true, decide_eq_true_eq, not_or, not_and] at hup
    refine ⟨q, by rw [Nat.shiftLeft_eq], by omega, ?_, ?_, ?_⟩
    · have e : q * P = P * q := by ring
      rw [e]; omega
    · have e : q * P = P * q := by ring
      rw [e]; omega
    · intro ht
      have := hup.2 ht
      omega

/-- Known binary32 sums: `0.1f + 0.2f` is the float `0.3f`; `2^24 + 1` is a tie
and rounds to the even `2^24`; `2^24 + 3` is a tie and rounds to the even
`2^24 + 4`. -/
theorem add_examples :
    add (fin (13421773 * 2 ^ 122)) (fin (13421773 * 2 ^ 123)) = fin (10066330 * 2 ^ 124) ∧
      add (ofInt 16777216) (ofInt 1) = ofInt 16777216 ∧
      add (ofInt 16777216) (ofInt 3) = ofInt 16777220 ∧
      add (ofInt 5) (ofInt (-7)) = ofInt (-2) := by
  decide!

/-- Overflow: the largest finite binary32 number `(2^24 - 1) * 2^104` plus half
a unit in its last place is infinite, plus a quarter of it is unchanged. -/
theorem add_overflow :
    add (fin (16777215 * 2 ^ 253)) (fin (2 ^ 252)) = inf false ∧
      add (fin (16777215 * 2 ^ 253)) (fin (2 ^ 251)) = fin (16777215 * 2 ^ 253) ∧
      add (fin (-(16777215 * 2 ^ 253))) (fin (-(16777215 * 2 ^ 253))) = inf true := by
  decide!

/-- Products: `0.1f * 0.1f` is `0x3c23d70b = 10737419 * 2^-30`; `1.5 * -2.5` is
`-3.75`; the smallest subnormal times `0.5` is a tie and rounds to zero, times
`0.75` it rounds back to the smallest subnormal. -/
theorem mul_examples :
    mul (fin (13421773 * 2 ^ 122)) (fin (13421773 * 2 ^ 122)) = fin (10737419 * 2 ^ 119) ∧
      mul (fin (3 * 2 ^ 148)) (fin (-(5 * 2 ^ 148))) = fin (-(15 * 2 ^ 147)) ∧
      mul (fin 1) (fin (2 ^ 148)) = fin 0 ∧
      mul (fin 1) (fin (3 * 2 ^ 147)) = fin 1 := by
  decide!

/-- Rounding to an integer and conversion: `round(2.5) = 3`, `round(-2.5) = -3`,
`round(0.49999997) = 0`, `round(-15.5) = -16`, `(int)(-0.75) = 0`,
`(int)(3.75) = 3`. -/
theorem round_examples :
    round (fin (5 * 2 ^ 148)) = ofInt 3 ∧
      round (fin (-(5 * 2 ^ 148))) = ofInt (-3) ∧
      round (fin (2 ^ 148 - 2 ^ 124)) = ofInt 0 ∧
      round (fin (-(31 * 2 ^ 148))) = ofInt (-16) ∧
      toInt (fin (-(3 * 2 ^ 147))) = 0 ∧
      toInt (fin (15 * 2 ^ 147)) = 3 := by
  decide!

end F32

/-! ## Theorems: the placement ray -/

theorem loopTs_stable : ∀ (n : Nat) (t : F32), (loopTs n t).length < n →
    ∀ m, n ≤ m → loopTs m t = loopTs n t := by
  intro n
  induction n with
  | zero => intro t h; simp at h
  | succ n ih =>
    intro t h m hm
    obtain ⟨m, rfl⟩ : ∃ k, m = k + 1 := ⟨m - 1, by omega⟩
    unfold loopTs at h ⊢
    by_cases ht : F32.le t maxD = true
    · simp only [ht, if_true, List.length_cons] at h ⊢
      rw [ih _ (by omega) m (by omega)]
    · simp [ht]

namespace Game

theorem marchLoop_stable (g : Game) : ∀ (n : Nat) (t : F32) (c : ivec3),
    (loopTs n t).length < n → ∀ m, n ≤ m → g.marchLoop m t c = g.marchLoop n t c := by
  intro n
  induction n with
  | zero => intro t c h; simp at h
  | succ n ih =>
    intro t c h m hm
    obtain ⟨m, rfl⟩ : ∃ k, m = k + 1 := ⟨m - 1, by omega⟩
    unfold loopTs at h
    unfold marchLoop
    by_cases ht : F32.le t maxD = true
    · simp only [ht, if_true, List.length_cons] at h ⊢
      by_cases hb : g.world.blockExists (g.cellAt t) = true
      · simp [hb]
      · simp only [hb, if_false]
        exact ih _ _ (by omega) m (by omega)
    · simp [ht]

theorem placementLoop_eq (g : Game) : ∀ (n : Nat) (t : F32) (c : ivec3),
    g.placementLoop n t c = (g.marchLoop n t c).lastEmpty := by
  intro n
  induction n with
  | zero => intro t c; rfl
  | succ n ih =>
    intro t c
    unfold placementLoop marchLoop
    by_cases ht : F32.le t maxD = true
    · by_cases hb : g.world.blockExists (g.cellAt t) = true
      · simp [ht, hb]
      · simp only [ht, hb, if_true, if_false]
        exact ih _ _
    · simp [ht]

theorem marchLoop_spec (g : Game) : ∀ (n : Nat) (t : F32) (c0 : ivec3),
    ((g.marchLoop n t c0).hit = none ∧
        (∀ c ∈ (loopTs n t).map g.cellAt, g.world.blockExists c = false) ∧
        (c0 :: (loopTs n t).map g.cellAt).getLast? = some (g.marchLoop n t c0).lastEmpty) ∨
      (∃ (k : Nat) (c : ivec3), ((loopTs n t).map g.cellAt)[k]? = some c ∧
        (g.marchLoop n t c0).hit = some c ∧
        g.world.blockExists c = true ∧
        (∀ (j : Nat) (c1 : ivec3), j < k → ((loopTs n t).map g.cellAt)[j]? = some c1 →
          g.world.blockExists c1 = false) ∧
        (c0 :: (loopTs n t).map g.cellAt)[k]? = some (g.marchLoop n t c0).lastEmpty) := by
  intro n
  induction n with
  | zero => intro t c0; left; simp [marchLoop, loopTs]
  | succ n ih =>
    intro t c0
    unfold marchLoop loopTs
    by_cases ht : F32.le t maxD = true
    · by_cases hb : g.world.blockExists (g.cellAt t) = true
      · right
        refine ⟨0, g.cellAt t, ?_⟩
        simp [ht, hb]
      · simp only [ht, hb, if_true, if_false, List.map_cons]
        rcases ih (F32.add t step) (g.cellAt t) with ⟨h1, h2, h3⟩ | ⟨k, c, h1, h2, h3, h4, h5⟩
        · left
          refine ⟨h1, ?_, ?_⟩
          · intro c hc
            rcases List.mem_cons.1 hc with rfl | hc
            · simpa using hb
            · exact h2 c hc
          · rw [List.getLast?_cons_cons]
            exact h3
        · right
          refine ⟨k + 1, c, by simpa using h1, h2, h3, ?_, by simpa using h5⟩
          intro j c1 hj hc1
          cases j with
          | zero =>
            simp at hc1
            subst hc1
            simpa using hb
          | succ j => exact h4 j c1 (by omega) (by simpa using hc1)
    · left
      simp [ht]

end Game

/-! ### The loop variable -/

/-- The loop test `t <= maxD` holds for the first 80 values of `t` and fails
for the 81st: with room for 81 iterations the body runs 80 times. -/
theorem loopTs_length : (loopTs 81 step).length = 80 := by decide!

/-- Every iteration bound above 80 gives the same values of `t`. -/
theorem loopTs_fuel (fuel : Nat) (h : 81 ≤ fuel) : loopTs fuel step = loopTs 81 step :=
  loopTs_stable 81 step (by rw [loopTs_length]; decide) fuel h

/-- The first sample is taken at `t = step`. -/
theorem loopTs_head : (loopTs marchFuel step)[0]? = some step := by decide!

/-- The last sample is taken at `t = 16777205 * 2^-21 = 7.99999475...`, the
result of adding `0.1f` to itself 79 times in single precision, not at `8.0f`. -/
theorem loopTs_last : (loopTs marchFuel step).getLast? = some (F32.fin (16777205 * 2 ^ 128)) := by
  decide!

/-- The `k`-th value of `t` (counting from 1) differs from `k / 10` by less
than `2^-17`. -/
theorem loopTs_near_tenths :
    ∀ k : Fin 80, ∃ n : Int, (loopTs marchFuel step)[k.val]? = some (F32.fin n) ∧
      (10 * n - ((k.val : Int) + 1) * 2 ^ 149).natAbs < 10 * 2 ^ 132 := by
  intro k
  have h : ∀ k : Fin 80,
      (match (loopTs marchFuel step)[k.val]? with
        | some (F32.fin n) =>
          decide ((10 * n - ((k.val : Int) + 1) * 2 ^ 149).natAbs < 10 * 2 ^ 132)
        | _ => false) = true := by decide!
  have hk := h k
  split at hk
  · next n hn => exact ⟨n, hn, of_decide_eq_true hk⟩
  · simp at hk

namespace Game

theorem sampleCells_length (g : Game) : g.sampleCells.length = 80 := by
  unfold sampleCells
  rw [List.length_map, loopTs_fuel marchFuel (by decide), loopTs_length]

/-- Every iteration bound above 80 gives the same result of the ray march as
the bound `marchFuel` of the model. -/
theorem marchLoop_fuel (g : Game) (fuel : Nat) (h : 81 ≤ fuel) (c : ivec3) :
    g.marchLoop fuel step c = g.marchLoop marchFuel step c := by
  rw [marchLoop_stable g 81 step c (by rw [loopTs_length]; decide) fuel h,
    marchLoop_stable g 81 step c (by rw [loopTs_length]; decide) marchFuel (by decide)]

theorem computePlacement_eq (g : Game) : g.computePlacement = g.rayMarch.lastEmpty :=
  placementLoop_eq g _ _ _

theorem sampleCells_head (g : Game) : g.sampleCells[0]? = some (g.cellAt step) := by
  unfold sampleCells
  rw [List.getElem?_map, loopTs_head]
  rfl

theorem rayMarch_spec (g : Game) :
    (g.rayMarch.hit = none ∧ (∀ c ∈ g.sampleCells, g.world.blockExists c = false) ∧
        (g.cellAt step :: g.sampleCells).getLast? = some g.rayMarch.lastEmpty) ∨
      (∃ (k : Nat) (c : ivec3), g.sampleCells[k]? = some c ∧ g.rayMarch.hit = some c ∧
        g.world.blockExists c = true ∧
        (∀ (j : Nat) (c1 : ivec3), j < k → g.sampleCells[j]? = some c1 →
          g.world.blockExists c1 = false) ∧
        (g.cellAt step :: g.sampleCells)[k]? = some g.rayMarch.lastEmpty) :=
  marchLoop_spec g marchFuel step (g.cellAt step)

/-- C4: when the ray march of `mouseButtonCallback` reports a hit, the hit cell
is the first occupied cell among the 80 sampled cells (it is occupied and the
cell of every earlier sample is not); the march reports no hit exactly when no
sampled cell is occupied. -/
theorem rayMarch_first_hit (g : Game) :
    g.sampleCells.length = 80 ∧
      ((∃ (k : Nat) (c : ivec3), g.sampleCells[k]? = some c ∧ g.rayMarch.hit = some c ∧
          g.world.blockExists c = true ∧
          ∀ (j : Nat) (c1 : ivec3), j < k → g.sampleCells[j]? = some c1 →
            g.world.blockExists c1 = false) ∨
        (g.rayMarch.hit = none ∧ ∀ c ∈ g.sampleCells, g.world.blockExists c = false)) ∧
      (g.rayMarch.hit = none ↔ ∀ c ∈ g.sampleCells, g.world.blockExists c = false) := by
  refine ⟨g.sampleCells_length, ?_, ?_⟩
  · rcases g.rayMarch_spec with ⟨h1, h2, _⟩ | ⟨k, c, h1, h2, h3, h4, _⟩
    · exact Or.inr ⟨h1, h2⟩
    · exact Or.inl ⟨k, c, h1, h2, h3, h4⟩
  · rcases g.rayMarch_spec with ⟨h1, h2, _⟩ | ⟨k, c, h1, h2, h3, h4, _⟩
    · exact ⟨fun _ => h2, fun _ => h1⟩
    · constructor
      · intro h; rw [h] at h2; cases h2
      · intro h
        have := h c (List.getElem?_mem h1)
        rw [h3] at this; cases this


/-! ### The cell chosen for addition -/

/-- When the ray march hits and the first sample is not occupied, `lastEmpty`
is the cell of the sample immediately before the first occupied sample, it is
unoccupied, and both `computePlacement` and the right-click placement use it. -/
theorem lastEmpty_before_hit (g : Game) (c : ivec3)
    (h0 : g.world.blockExists (g.cellAt step) = false) (hc : g.rayMarch.hit = some c) :
    ∃ k : Nat, g.sampleCells[k + 1]? = some c ∧
      g.sampleCells[k]? = some g.rayMarch.lastEmpty ∧
      g.world.blockExists g.rayMarch.lastEmpty = false ∧
      (∀ (j : Nat) (c1 : ivec3), j < k + 1 → g.sampleCells[j]? = some c1 →
        g.world.blockExists c1 = false) ∧
      g.place = g.rayMarch.lastEmpty ∧ g.computePlacement = g.rayMarch.lastEmpty := by
  have hplace : g.place = g.rayMarch.lastEmpty := by unfold place; rw [hc]
  rcases g.rayMarch_spec with ⟨h1, _, _⟩ | ⟨k, c1, h1, h2, h3, h4, h5⟩
  · rw [h1] at hc; cases hc
  · rw [hc] at h2
    cases h2
    cases k with
    | zero =>
      rw [g.sampleCells_head] at h1
      cases h1
      rw [h0] at h3; cases h3
    | succ k =>
      refine ⟨k, h1, by simpa using h5, ?_, h4, hplace, g.computePlacement_eq⟩
      exact h4 k _ (by omega) (by simpa using h5)

/-- When the first sample is occupied, the march hits there and `lastEmpty`
keeps its initial value, the occupied cell of that first sample; it is what
`computePlacement` returns and what a right click passes to `addBlock`. -/
theorem lastEmpty_of_first_occupied (g : Game)
    (h0 : g.world.blockExists (g.cellAt step) = true) :
    g.rayMarch.hit = some (g.cellAt step) ∧ g.rayMarch.lastEmpty = g.cellAt step ∧
      g.computePlacement = g.cellAt step ∧ g.place = g.cellAt step := by
  have key : g.rayMarch.hit = some (g.cellAt step) ∧ g.rayMarch.lastEmpty = g.cellAt step := by
    rcases g.rayMarch_spec with ⟨_, h2, _⟩ | ⟨k, c, h1, h2, _, h4, h5⟩
    · have := h2 _ (List.getElem?_mem g.sampleCells_head)
      rw [h0] at this; cases this
    · cases k with
      | zero =>
        rw [g.sampleCells_head] at h1
        cases h1
        exact ⟨h2, by simpa using h5.symm⟩
      | succ k =>
        have := h4 0 _ (by omega) g.sampleCells_head
        rw [h0] at this; cases this
  refine ⟨key.1, key.2, g.computePlacement_eq.trans key.2, ?_⟩
  unfold place
  rw [key.1]
  exact key.2

/-- C1 fails on the code when the very first sample is occupied: with the eye
inside the block at `(0, 20, 45)` the march hits at the first sample, and
`lastEmpty` (returned by `computePlacement` and used by the right click) is
that same occupied cell, not an empty cell before the hit. -/
theorem lastEmpty_occupied_at_first_sample :
    eyeInsideBlock.sampleCells[0]? = some ⟨0, 20, 45⟩ ∧
      eyeInsideBlock.rayMarch.hit = some ⟨0, 20, 45⟩ ∧
      eyeInsideBlock.rayMarch.lastEmpty = ⟨0, 20, 45⟩ ∧
      eyeInsideBlock.computePlacement = ⟨0, 20, 45⟩ ∧
      eyeInsideBlock.place = ⟨0, 20, 45⟩ ∧
      eyeInsideBlock.world.blockExists eyeInsideBlock.place = true := by
  decide!

/-! ### Preview cell and placement cell -/

/-- When the ray march hits, the preview cell is the right-click cell. -/
theorem computePlacement_eq_place_of_hit (g : Game) (c : ivec3) (hc : g.rayMarch.hit = some c) :
    g.computePlacement = g.place := by
  rw [g.computePlacement_eq]
  unfold place
  rw [hc]

/-- When the ray march does not hit, the preview cell is the cell of the last
sample, taken at `t = 7.99999475...`, while the right-click cell is the
rounded point at `t = maxD = 8`. -/
theorem computePlacement_place_of_no_hit (g : Game) (hc : g.rayMarch.hit = none) :
    g.computePlacement = g.cellAt (F32.fin (16777205 * 2 ^ 128)) ∧ g.place = g.cellAt maxD := by
  constructor
  · rw [g.computePlacement_eq]
    rcases g.rayMarch_spec with ⟨_, _, h3⟩ | ⟨k, c1, _, h2, _⟩
    · have hne : g.sampleCells ≠ [] := by
        intro h
        have := g.sampleCells_length
        rw [h] at this
        cases this
      obtain ⟨a, l, hl⟩ := List.exists_cons_of_ne_nil hne
      rw [hl, List.getLast?_cons_cons, ← hl] at h3
      unfold sampleCells at h3
      rw [List.getLast?_map, loopTs_last, Option.map_some'] at h3
      exact (Option.some.inj h3).symm
    · rw [hc] at h2; cases h2
  · unfold place
    rw [hc]

/-- C5 fails on the code: under an open sky, with the eye at `(0, 20, -7.5)`
looking along `-z`, the ray march hits nothing, `computePlacement` returns the
cell `(0, 20, -15)` of the last sample (`-7.5 - 7.99999475` rounds to `-15`),
and a right click adds the block at `(0, 20, -16)` (`-7.5 - 8 = -15.5` rounds to
`-16`). -/
theorem preview_differs_from_placement :
    openSky.rayMarch.hit = none ∧
      openSky.computePlacement = ⟨0, 20, -15⟩ ∧
      openSky.place = ⟨0, 20, -16⟩ ∧
      (openSky.mouseButtonCallback GLFW_MOUSE_BUTTON_RIGHT GLFW_PRESS).world.blocks =
        [⟨⟨0, 20, -16⟩, GRASS⟩] := by
  decide!

/-- The same difference in every world that has no block at height 20 (the
terrain and its trees stay below that height), whatever block type is
selected. -/
theorem preview_differs_over_terrain (w : World) (sel : Int)
    (h : ∀ b ∈ w.blocks, b.position.y ≠ 20) :
    (Game.mk openSky.camera w sel).rayMarch.hit = none ∧
      (Game.mk openSky.camera w sel).computePlacement = ⟨0, 20, -15⟩ ∧
      (Game.mk openSky.camera w sel).place = ⟨0, 20, -16⟩ := by
  have hy : ∀ c ∈ openSky.sampleCells, c.y = 20 := by decide!
  have hempty : ∀ c ∈ openSky.sampleCells, w.blockExists c = false := by
    intro c hc
    rw [World.blockExists_false_iff]
    intro b hb hbc
    exact h b hb (by rw [hbc]; exact hy c hc)
  have hno : (Game.mk openSky.camera w sel).rayMarch.hit = none := by
    rcases (Game.mk openSky.camera w sel).rayMarch_spec with ⟨h1, _, _⟩ | ⟨k, c, h1, _, h3, _, _⟩
    · exact h1
    · have hf := hempty c (List.getElem?_mem h1)
      rw [show (Game.mk openSky.camera w sel).world.blockExists c = w.blockExists c from rfl,
        hf] at h3
      cases h3
  have hcells := computePlacement_place_of_no_hit _ hno
  have e1 : openSky.cellAt (F32.fin (16777205 * 2 ^ 128)) = ⟨0, 20, -15⟩ := by decide!
  have e2 : openSky.cellAt maxD = ⟨0, 20, -16⟩ := by decide!
  exact ⟨hno, hcells.1.trans e1, hcells.2.trans e2⟩

end Game

/-! ## Theorems: the mouse-button event -/

namespace World

theorem removeBlock_of_blockExists (w : World) (c : ivec3) (h : w.blockExists c = true) :
    ∃ (l1 : List Block) (b : Block) (l2 : List Block), w.blocks = l1 ++ b :: l2 ∧
      b.position = c ∧ (∀ a ∈ l1, a.position ≠ c) ∧ (w.removeBlock c).blocks = l1 ++ l2 := by
  obtain ⟨b, hb, hbc⟩ := (blockExists_iff w c).1 h
  obtain ⟨a, l1, l2, h1, h2, h3, h4⟩ :=
    List.exists_of_eraseP (p := fun b : Block => b.position == c) hb (by simpa using hbc)
  refine ⟨l1, a, l2, h3, by simpa using h2, ?_, h4⟩
  intro x hx
  simpa using h1 x hx

end World

namespace Game

theorem mouseButtonCallback_world (g : Game) (button action : Int) :
    (g.mouseButtonCallback button action).world =
      if action ≠ GLFW_PRESS then g.world
      else if button = GLFW_MOUSE_BUTTON_RIGHT then
        (match g.rayMarch.hit with
          | some hitBlock =>
            if button = GLFW_MOUSE_BUTTON_LEFT then g.world.removeBlock hitBlock else g.world
          | none => g.world).addBlock g.place g.selectedType
      else
        (match g.rayMarch.hit with
          | some hitBlock =>
            if button = GLFW_MOUSE_BUTTON_LEFT then g.world.removeBlock hitBlock else g.world
          | none => g.world) := by
  unfold mouseButtonCallback
  by_cases ha : action ≠ GLFW_PRESS
  · rw [if_pos ha, if_pos ha]
  · rw [if_neg ha, if_neg ha]

theorem mouseButtonCallback_frame (g : Game) (button action : Int) :
    (g.mouseButtonCallback button action).camera = g.camera ∧
      (g.mouseButtonCallback button action).selectedType = g.selectedType := by
  unfold mouseButtonCallback
  by_cases ha : action ≠ GLFW_PRESS
  · rw [if_pos ha]; exact ⟨rfl, rfl⟩
  · rw [if_neg ha]; exact ⟨rfl, rfl⟩

/-- C6: a mouse-button event leaves the camera and the selected type alone and
changes the world in exactly one of these ways.  An event that is not a press
leaves the world unchanged.  A left press with no hit leaves it unchanged; a
left press with a hit at `c` erases one block, the first block located at `c`,
keeping all other blocks in order.  A right press leaves the block list
unchanged or appends the single block at the placement cell with the selected
type.  A press of any other button leaves the world unchanged. -/
theorem mouseButtonCallback_effect (g : Game) (button action : Int) :
    ((g.mouseButtonCallback button action).camera = g.camera ∧
        (g.mouseButtonCallback button action).selectedType = g.selectedType) ∧
      ((action ≠ GLFW_PRESS ∧ (g.mouseButtonCallback button action).world = g.world) ∨
        (action = GLFW_PRESS ∧ button = GLFW_MOUSE_BUTTON_LEFT ∧ g.rayMarch.hit = none ∧
          (g.mouseButtonCallback button action).world = g.world) ∨
        (action = GLFW_PRESS ∧ button = GLFW_MOUSE_BUTTON_LEFT ∧
          ∃ (c : ivec3) (l1 : List Block) (b : Block) (l2 : List Block),
            g.rayMarch.hit = some c ∧ g.world.blocks = l1 ++ b :: l2 ∧ b.position = c ∧
            (∀ a ∈ l1, a.position ≠ c) ∧
            (g.mouseButtonCallback button action).world.blocks = l1 ++ l2) ∨
        (action = GLFW_PRESS ∧ button = GLFW_MOUSE_BUTTON_RIGHT ∧
          ((g.mouseButtonCallback button action).world.blocks = g.world.blocks ∨
            (g.mouseButtonCallback button action).world.blocks =
              g.world.blocks ++ [⟨g.place, g.selectedType⟩])) ∨
        (action = GLFW_PRESS ∧ button ≠ GLFW_MOUSE_BUTTON_LEFT ∧
          button ≠ GLFW_MOUSE_BUTTON_RIGHT ∧
          (g.mouseButtonCallback button action).world = g.world)) := by
  refine ⟨g.mouseButtonCallback_frame button action, ?_⟩
  rw [g.mouseButtonCallback_world]
  by_cases ha : action ≠ GLFW_PRESS
  · left; rw [if_pos ha]; exact ⟨ha, rfl⟩
  · right
    rw [if_neg ha]
    have ha : action = GLFW_PRESS := not_not.1 ha
    by_cases hr : button = GLFW_MOUSE_BUTTON_RIGHT
    · right; right; left
      have hl : ¬ button = GLFW_MOUSE_BUTTON_LEFT := by rw [hr]; decide
      rw [if_pos hr]
      have hw : (match g.rayMarch.hit with
          | some hitBlock =>
            if button = GLFW_MOUSE_BUTTON_LEFT then g.world.removeBlock hitBlock else g.world
          | none => g.world) = g.world := by
        cases g.rayMarch.hit with
        | none => rfl
        | some c => simp only [if_neg hl]
      rw [hw, World.addBlock_blocks]
      refine ⟨ha, hr, ?_⟩
      cases g.world.blockExists g.place
      · right; simp
      · left; simp
    · rw [if_neg hr]
      by_cases hl : button = GLFW_MOUSE_BUTTON_LEFT
      · cases hh : g.rayMarch.hit with
        | none => left; exact ⟨ha, hl, rfl, rfl⟩
        | some c =>
          right; left
          simp only [if_pos hl]
          have hex : g.world.blockExists c = true := by
            rcases g.rayMarch_spec with ⟨h1, _, _⟩ | ⟨k, c1, _, h2, h3, _, _⟩
            · rw [hh] at h1; cases h1
            · rw [hh] at h2; cases h2; exact h3
          obtain ⟨l1, b, l2, e1, e2, e3, e4⟩ := g.world.removeBlock_of_blockExists c hex
          exact ⟨ha, hl, c, l1, b, l2, rfl, e1, e2, e3, e4⟩
      · right; right; right
        refine ⟨ha, hl, hr, ?_⟩
        cases g.rayMarch.hit with
        | none => rfl
        | some c => simp only [if_neg hl]

end Game

/-! ## Theorems: the selected block type -/

theorem foldl_invariant {α β : Type} (Q : β → Prop) (f : β → α → β) (l : List α)
    (hf : ∀ w a, a ∈ l → Q w → Q (f w a)) (w : β) (hw : Q w) : Q (l.foldl f w) := by
  induction l generalizing w with
  | nil => exact hw
  | cons a l ih =>
    rw [List.foldl_cons]
    exact ih (fun w b hb => hf w b (List.mem_cons_of_mem a hb)) _
      (hf w a (List.mem_cons_self a l) hw)

theorem mem_intRange (lo : Int) (n : Nat) (i : Int) :
    i ∈ intRange lo n ↔ lo ≤ i ∧ i < lo + (n : Int) := by
  unfold intRange
  rw [List.mem_map]
  constructor
  · rintro ⟨k, hk, rfl⟩
    have := List.mem_range.1 hk
    omega
  · rintro ⟨h1, h2⟩
    refine ⟨(i - lo).toNat, List.mem_range.2 (by omega), by omega⟩

namespace World

theorem typesValid_push (w : World) (b : Block) (h : w.TypesValid)
    (hb : 0 ≤ b.type ∧ b.type ≤ 5) : TypesValid ⟨w.blocks ++ [b]⟩ := by
  intro a ha
  rcases List.mem_append.1 ha with ha | ha
  · exact h a ha
  · rw [List.mem_singleton] at ha
    rw [ha]; exact hb

theorem typesValid_addBlock (w : World) (p : ivec3) (t : BlockType) (h : w.TypesValid)
    (ht : 0 ≤ t ∧ t ≤ 5) : (w.addBlock p t).TypesValid := by
  unfold addBlock
  split
  · exact typesValid_push w ⟨p, t⟩ h ht
  · exact h

theorem typesValid_removeBlock (w : World) (p : ivec3) (h : w.TypesValid) :
    (w.removeBlock p).TypesValid :=
  fun b hb => h b (List.mem_of_mem_eraseP hb)

theorem typesValid_pushColumn (w : World) (x h z : Int) (hw : w.TypesValid) :
    (w.pushColumn x h z).TypesValid := by
  unfold pushColumn
  refine foldl_invariant TypesValid _ _ ?_ w hw
  intro w y _ hw
  refine typesValid_push w _ hw ?_
  show 0 ≤ (if y = -1 then SAND else if y = h then GRASS else DIRT) ∧
    (if y = -1 then SAND else if y = h then GRASS else DIRT) ≤ 5
  split
  · decide
  · split <;> decide

theorem typesValid_addTree (w : World) (x h z : Int) (hw : w.TypesValid) :
    (w.addTree x h z).TypesValid := by
  unfold addTree
  refine foldl_invariant TypesValid _ _ ?_ _ ?_
  · intro w dx _ hw
    refine foldl_invariant TypesValid _ _ ?_ _ hw
    intro w dy _ hw
    refine foldl_invariant TypesValid _ _ ?_ _ hw
    intro w dz _ hw
    split
    · exact typesValid_addBlock w _ LEAVES hw (by decide)
    · exact hw
  · refine foldl_invariant TypesValid _ _ ?_ _ hw
    intro w ty _ hw
    exact typesValid_addBlock w _ WOOD hw (by decide)

theorem typesValid_genColumn (rawH : Int → Int → Int) (tree : Int → Int → Bool) (w : World)
    (x z : Int) (hw : w.TypesValid) : (genColumn rawH tree w x z).TypesValid := by
  unfold genColumn
  dsimp only
  generalize (if rawH x z < -1 then -1 else rawH x z) = h
  by_cases ht : 0 ≤ h ∧ tree x z = true
  · rw [if_pos ht]
    exact typesValid_addTree _ _ _ _ (typesValid_pushColumn _ _ _ _ hw)
  · rw [if_neg ht]
    exact typesValid_pushColumn _ _ _ _ hw

theorem typesValid_generateTerrain (rawH : Int → Int → Int) (tree : Int → Int → Bool) (w : World)
    (hw : w.TypesValid) : (w.generateTerrain rawH tree).TypesValid := by
  unfold generateTerrain
  refine foldl_invariant TypesValid _ _ ?_ _ hw
  intro w x _ hw
  refine foldl_invariant TypesValid _ _ ?_ _ hw
  intro w z _ hw
  exact typesValid_genColumn rawH tree w x z hw

end World

namespace Game

theorem processInput_world (g : Game) (pressed : Int → Bool) (moved : Camera) :
    (g.processInput pressed moved).world = g.world := by
  unfold processInput
  refine foldl_invariant (fun g1 : Game => g1.world = g.world) _ _ ?_ _ rfl
  intro g1 i _ h
  split
  · exact h
  · exact h

theorem processInput_selectedType_range (g : Game) (pressed : Int → Bool) (moved : Camera)
    (h : 0 ≤ g.selectedType ∧ g.selectedType ≤ 5) :
    0 ≤ (g.processInput pressed moved).selectedType ∧
      (g.processInput pressed moved).selectedType ≤ 5 := by
  unfold processInput
  refine foldl_invariant (fun g1 : Game => 0 ≤ g1.selectedType ∧ g1.selectedType ≤ 5) _
    (intRange 0 6) ?_ _ h
  intro g1 i hi h1
  have hi6 : 0 ≤ i ∧ i < 0 + ((6 : Nat) : Int) := (mem_intRange 0 6 i).1 hi
  split
  · show (0 : Int) ≤ i ∧ i ≤ 5
    omega
  · exact h1

theorem processInput_selects (g : Game) (pressed : Int → Bool) (moved : Camera) (i : Int)
    (h0 : 0 ≤ i) (hi : i < 6) (hp : pressed (GLFW_KEY_1 + i) = true)
    (hno : ∀ j : Int, i < j → j < 6 → pressed (GLFW_KEY_1 + j) = false) :
    (g.processInput pressed moved).selectedType = i := by
  unfold processInput
  have hr : intRange 0 6 = [0, 1, 2, 3, 4, 5] := by decide
  rw [hr]
  simp only [List.foldl]
  have h1 := hno 1
  have h2 := hno 2
  have h3 := hno 3
  have h4 := hno 4
  have h5 := hno 5
  interval_cases i <;> simp_all

theorem processInput_idle (g : Game) (pressed : Int → Bool) (moved : Camera)
    (hno : ∀ j : Int, 0 ≤ j → j < 6 → pressed (GLFW_KEY_1 + j) = false) :
    (g.processInput pressed moved).selectedType = g.selectedType := by
  unfold processInput
  have hr : intRange 0 6 = [0, 1, 2, 3, 4, 5] := by decide
  rw [hr]
  simp only [List.foldl]
  have h0 := hno 0
  have h1 := hno 1
  have h2 := hno 2
  have h3 := hno 3
  have h4 := hno 4
  have h5 := hno 5
  simp_all

theorem mouseButtonCallback_typesValid (g : Game) (button action : Int)
    (hs : 0 ≤ g.selectedType ∧ g.selectedType ≤ 5) (hw : g.world.TypesValid) :
    (g.mouseButtonCallback button action).world.TypesValid := by
  rw [g.mouseButtonCallback_world]
  have hm : World.TypesValid (match g.rayMarch.hit with
      | some hitBlock =>
        if button = GLFW_MOUSE_BUTTON_LEFT then g.world.removeBlock hitBlock else g.world
      | none => g.world) := by
    cases g.rayMarch.hit with
    | none => exact hw
    | some c =>
      dsimp only
      split
      · exact World.typesValid_removeBlock g.world c hw
      · exact hw
  split
  · exact hw
  · split
    · exact World.typesValid_addBlock _ _ _ hm hs
    · exact hm

theorem reachable_invariant (front : vec3) (rawH : Int → Int → Int) (tree : Int → Int → Bool)
    (g : Game) (h : Reachable front rawH tree g) :
    (0 ≤ g.selectedType ∧ g.selectedType ≤ 5) ∧ g.world.TypesValid := by
  induction h with
  | init =>
    refine ⟨?_, World.typesValid_generateTerrain rawH tree World.empty ?_⟩
    · show (0 : Int) ≤ GRASS ∧ GRASS ≤ (5 : Int)
      decide
    · intro b hb
      cases hb
  | input g pressed moved _ ih =>
    refine ⟨processInput_selectedType_range g pressed moved ih.1, ?_⟩
    rw [processInput_world]
    exact ih.2
  | mouseButton g button action _ ih =>
    refine ⟨?_, mouseButtonCallback_typesValid g button action ih.1 ih.2⟩
    rw [(g.mouseButtonCallback_frame button action).2]
    exact ih.1
  | cursorPos g turned _ ih => exact ih

/-- C7: in every game state reachable from the constructor through
`processInput`, mouse-button and cursor events, `selectedType` is an integer
in `0..5`; every block of the world has a type in `0..5`; every texture index
that `World::render` passes to `drawCube` is within the 6-entry texture array;
`processInput` sets `selectedType` to `i` when key `'1' + i` is pressed and no
higher number key is, and leaves it alone when no number key is pressed; and
the types are numbered 0 = dirt, 1 = grass, 2 = leaves, 3 = sand, 4 = stone,
5 = wood, the constructor selecting grass. -/
theorem selectedType_in_range (front : vec3) (rawH : Int → Int → Int)
    (tree : Int → Int → Bool) (g : Game) (h : Reachable front rawH tree g) :
    (0 ≤ g.selectedType ∧ g.selectedType ≤ 5) ∧
      (∀ b ∈ g.world.blocks, 0 ≤ b.type ∧ b.type ≤ 5) ∧
      (∀ i ∈ g.world.render, 0 ≤ i ∧ i < 6) ∧
      (∀ (pressed : Int → Bool) (moved : Camera) (i : Int), 0 ≤ i → i < 6 →
        pressed (GLFW_KEY_1 + i) = true →
        (∀ j : Int, i < j → j < 6 → pressed (GLFW_KEY_1 + j) = false) →
        (g.processInput pressed moved).selectedType = i) ∧
      (∀ (pressed : Int → Bool) (moved : Camera),
        (∀ j : Int, 0 ≤ j → j < 6 → pressed (GLFW_KEY_1 + j) = false) →
        (g.processInput pressed moved).selectedType = g.selectedType) ∧
      (Game.new front rawH tree).selectedType = GRASS ∧
      GLFW_KEY_1 = 49 ∧
      (DIRT, GRASS, LEAVES, SAND, STONE, WOOD) = ((0 : Int), (1 : Int), (2 : Int), (3 : Int),
        (4 : Int), (5 : Int)) := by
  have hinv := reachable_invariant front rawH tree g h
  refine ⟨hinv.1, hinv.2, ?_, ?_, ?_, rfl, rfl, rfl⟩
  · intro i hi
    unfold World.render at hi
    obtain ⟨b, hb, rfl⟩ := List.mem_map.1 hi
    have hb5 := hinv.2 b hb
    exact ⟨hb5.1, Int.lt_of_le_of_lt hb5.2 (by decide)⟩
  · intro pressed moved i h0 hi hp hno
    exact processInput_selects g pressed moved i h0 hi hp hno
  · intro pressed moved hno
    exact processInput_idle g pressed moved hno

/-- Witness for C7: the state reached from the constructor (flat terrain, no
tree) by one `processInput` with only key `3` pressed. -/
theorem selectedType_in_range_witness :
    Reachable defaultFront (fun _ _ => -1) (fun _ _ => false) keyThreePressed ∧
      keyThreePressed.selectedType = LEAVES ∧
      (0 ≤ keyThreePressed.selectedType ∧ keyThreePressed.selectedType ≤ 5) ∧
      (∀ b ∈ keyThreePressed.world.blocks, 0 ≤ b.type ∧ b.type ≤ 5) ∧
      (∀ i ∈ keyThreePressed.world.render, 0 ≤ i ∧ i < 6) :=
  have hr : Reachable defaultFront (fun _ _ => -1) (fun _ _ => false) keyThreePressed :=
    Reachable.input _ _ _ Reachable.init
  have hall := selectedType_in_range defaultFront (fun _ _ => -1) (fun _ _ => false)
    keyThreePressed hr
  ⟨hr, by decide,
    hall.1, hall.2.1, hall.2.2.1⟩

end Game

/-! ## Theorems: terrain generation -/

theorem foldl_step {α β : Type} (R Q : β → Prop) (f : β → α → β) (l : List α) (a : α)
    (ha : a ∈ l) (hR : ∀ w b, R w → R (f w b)) (hQ : ∀ w b, Q w → Q (f w b))
    (hstep : ∀ w, R w → Q (f w a)) : ∀ w, R w → Q (l.foldl f w) := by
  induction l with
  | nil => cases ha
  | cons b l ih =>
    intro w hw
    rw [List.foldl_cons]
    rcases List.mem_cons.1 ha with rfl | hmem
    · exact foldl_invariant Q f l (fun w b _ h => hQ w b h) _ (hstep w hw)
    · exact ih hmem _ (hR w b hw)

namespace World

theorem countAt_push (w : World) (b : Block) (p : ivec3) :
    countAt ⟨w.blocks ++ [b]⟩ p = w.countAt p + if b.position = p then 1 else 0 := by
  unfold countAt
  rw [List.countP_append]
  by_cases h : b.position = p <;> simp [h]

theorem countAt_le_addBlock (w : World) (q p : ivec3) (t : BlockType) :
    w.countAt p ≤ (w.addBlock q t).countAt p := by
  unfold addBlock
  split
  · rw [countAt_push]; omega
  · exact Nat.le_refl _

theorem one_le_countAt_addBlock (w : World) (p : ivec3) (t : BlockType) :
    1 ≤ (w.addBlock p t).countAt p := by
  have h : (w.addBlock p t).blockExists p = true := by simp [blockExists_addBlock]
  unfold blockExists at h
  unfold countAt
  exact List.countP_pos_iff.2 (by simpa using h)

theorem foldl_countAt_le {α : Type} (f : World → α → World) (p : ivec3)
    (hf : ∀ w a, w.countAt p ≤ (f w a).countAt p) (l : List α) (w : World) :
    w.countAt p ≤ (l.foldl f w).countAt p :=
  foldl_invariant (fun w1 : World => w.countAt p ≤ w1.countAt p) f l
    (fun w1 a _ h => Nat.le_trans h (hf w1 a)) w (Nat.le_refl _)

theorem countAt_le_pushColumn (w : World) (x h z : Int) (p : ivec3) :
    w.countAt p ≤ (w.pushColumn x h z).countAt p := by
  unfold pushColumn
  refine foldl_countAt_le _ p ?_ _ w
  intro w y
  rw [countAt_push]; omega

theorem countAt_le_addTree (w : World) (x h z : Int) (p : ivec3) :
    w.countAt p ≤ (w.addTree x h z).countAt p := by
  unfold addTree
  dsimp only
  have h1 : w.countAt p ≤
      ((intRange 1 4).foldl (fun w ty => w.addBlock ⟨x, h + ty, z⟩ WOOD) w).countAt p :=
    foldl_countAt_le _ p (fun w ty => countAt_le_addBlock w _ p WOOD) _ w
  refine Nat.le_trans h1 ?_
  refine foldl_countAt_le _ p ?_ _ _
  intro w dx
  refine foldl_countAt_le _ p ?_ _ _
  intro w dy
  refine foldl_countAt_le _ p ?_ _ _
  intro w dz
  split
  · exact countAt_le_addBlock w _ p LEAVES
  · exact Nat.le_refl _

theorem countAt_le_genColumn (rawH : Int → Int → Int) (tree : Int → Int → Bool) (w : World)
    (x z : Int) (p : ivec3) : w.countAt p ≤ (genColumn rawH tree w x z).countAt p := by
  unfold genColumn
  dsimp only
  generalize (if rawH x z < -1 then -1 else rawH x z) = h
  by_cases ht : 0 ≤ h ∧ tree x z = true
  · rw [if_pos ht]
    exact Nat.le_trans (countAt_le_pushColumn w x h z p) (countAt_le_addTree _ x h z p)
  · rw [if_neg ht]
    exact countAt_le_pushColumn w x h z p

/-- The tree at column `(-13, -2)` on ground height 0 puts a leaf block at
`(-11, 3, -1)` (offsets `dx = 2`, `dy = 3`, `dz = 1`). -/
theorem addTree_leaf (w : World) : 1 ≤ (w.addTree (-13) 0 (-2)).countAt ⟨-11, 3, -1⟩ := by
  unfold addTree
  dsimp only
  generalize (intRange 1 4).foldl (fun w ty => w.addBlock ⟨-13, 0 + ty, -2⟩ WOOD) w = w1
  have mono : ∀ (k : Nat) (w w1 : World), w.countAt ⟨-11, 3, -1⟩ ≤ w1.countAt ⟨-11, 3, -1⟩ →
      k ≤ w.countAt ⟨-11, 3, -1⟩ → k ≤ w1.countAt ⟨-11, 3, -1⟩ := fun k w w1 h1 h2 => Nat.le_trans h2 h1
  refine foldl_step (fun _ => True) (fun w : World => 1 ≤ w.countAt ⟨-11, 3, -1⟩) _ _ 2
    (by decide) (fun _ _ _ => trivial) ?_ ?_ w1 trivial
  · intro w dx h
    refine mono 1 w _ ?_ h
    refine foldl_countAt_le _ _ ?_ _ _
    intro w dy
    refine foldl_countAt_le _ _ ?_ _ _
    intro w dz
    split
    · exact countAt_le_addBlock w _ _ LEAVES
    · exact Nat.le_refl _
  · intro w _
    refine foldl_step (fun _ => True) (fun w : World => 1 ≤ w.countAt ⟨-11, 3, -1⟩) _ _ 3
      (by decide) (fun _ _ _ => trivial) ?_ ?_ w trivial
    · intro w dy h
      refine mono 1 w _ ?_ h
      refine foldl_countAt_le _ _ ?_ _ _
      intro w dz
      split
      · exact countAt_le_addBlock w _ _ LEAVES
      · exact Nat.le_refl _
    · intro w _
      refine foldl_step (fun _ => True) (fun w : World => 1 ≤ w.countAt ⟨-11, 3, -1⟩) _ _ 1
        (by decide) (fun _ _ _ => trivial) ?_ ?_ w trivial
      · intro w dz h
        split
        · exact mono 1 w _ (countAt_le_addBlock w _ _ LEAVES) h
        · exact h
      · intro w _
        rw [if_pos (by decide)]
        exact one_le_countAt_addBlock w _ LEAVES

/-- The column `(-11, -1)` of height 3 appends a block at `(-11, 3, -1)` whether
or not one is already there. -/
theorem pushColumn_top (w : World) :
    w.countAt ⟨-11, 3, -1⟩ + 1 ≤ (w.pushColumn (-11) 3 (-1)).countAt ⟨-11, 3, -1⟩ := by
  unfold pushColumn
  refine foldl_step (fun w1 : World => w.countAt ⟨-11, 3, -1⟩ ≤ w1.countAt ⟨-11, 3, -1⟩)
    (fun w1 : World => w.countAt ⟨-11, 3, -1⟩ + 1 ≤ w1.countAt ⟨-11, 3, -1⟩) _ _ 3
    (by decide) ?_ ?_ ?_ w (Nat.le_refl _)
  · intro w1 y h
    rw [countAt_push]; omega
  · intro w1 y h
    rw [countAt_push]; omega
  · intro w1 h
    rw [countAt_push, if_pos rfl]; omega


theorem genColumn_tree_leaf (rawH : Int → Int → Int) (tree : Int → Int → Bool)
    (h1 : rawH (-13) (-2) = 0) (h3 : tree (-13) (-2) = true) (w : World) :
    1 ≤ (genColumn rawH tree w (-13) (-2)).countAt ⟨-11, 3, -1⟩ := by
  unfold genColumn
  dsimp only
  have hh : (if (0 : Int) < -1 then (-1 : Int) else 0) = 0 := by decide
  rw [h1, h3, hh, if_pos (by decide)]
  exact addTree_leaf _

theorem genColumn_top (rawH : Int → Int → Int) (tree : Int → Int → Bool)
    (h2 : rawH (-11) (-1) = 3) (w : World) (hw : 1 ≤ w.countAt ⟨-11, 3, -1⟩) :
    2 ≤ (genColumn rawH tree w (-11) (-1)).countAt ⟨-11, 3, -1⟩ := by
  unfold genColumn
  dsimp only
  have hh : (if (3 : Int) < -1 then (-1 : Int) else 3) = 3 := by decide
  rw [h2, hh]
  have hp := pushColumn_top w
  split
  · have := countAt_le_addTree (w.pushColumn (-11) 3 (-1)) (-11) 3 (-1) ⟨-11, 3, -1⟩
    omega
  · omega

theorem countAt_le_row (rawH : Int → Int → Int) (tree : Int → Int → Bool) (p : ivec3)
    (l : List Int) (w : World) (x : Int) :
    w.countAt p ≤ (l.foldl (fun w z => genColumn rawH tree w x z) w).countAt p :=
  foldl_countAt_le _ p (fun w z => countAt_le_genColumn rawH tree w x z p) l w

theorem generateTerrain_two_blocks (rawH : Int → Int → Int) (tree : Int → Int → Bool)
    (h1 : rawH (-13) (-2) = 0) (h2 : rawH (-11) (-1) = 3) (h3 : tree (-13) (-2) = true) :
    2 ≤ (World.empty.generateTerrain rawH tree).countAt ⟨-11, 3, -1⟩ := by
  unfold generateTerrain
  have hsplit : intRange (-20) 40 = intRange (-20) 8 ++ intRange (-12) 32 := by decide
  rw [hsplit, List.foldl_append]
  refine foldl_step (fun w : World => 1 ≤ w.countAt ⟨-11, 3, -1⟩)
    (fun w : World => 2 ≤ w.countAt ⟨-11, 3, -1⟩) _ (intRange (-12) 32) (-11) (by decide)
    (fun w x h => Nat.le_trans h (countAt_le_row rawH tree _ _ w x))
    (fun w x h => Nat.le_trans h (countAt_le_row rawH tree _ _ w x)) ?_ _ ?_
  · intro w hw
    exact foldl_step (fun w : World => 1 ≤ w.countAt ⟨-11, 3, -1⟩)
      (fun w : World => 2 ≤ w.countAt ⟨-11, 3, -1⟩) _ (intRange (-20) 40) (-1) (by decide)
      (fun w z h => Nat.le_trans h (countAt_le_genColumn rawH tree w _ z _))
      (fun w z h => Nat.le_trans h (countAt_le_genColumn rawH tree w _ z _))
      (fun w hw => genColumn_top rawH tree h2 w hw) w hw
  · refine foldl_step (fun _ : World => True)
      (fun w : World => 1 ≤ w.countAt ⟨-11, 3, -1⟩) _ (intRange (-20) 8) (-13) (by decide)
      (fun _ _ _ => trivial)
      (fun w x h => Nat.le_trans h (countAt_le_row rawH tree _ _ w x)) ?_ _ trivial
    intro w _
    exact foldl_step (fun _ : World => True)
      (fun w : World => 1 ≤ w.countAt ⟨-11, 3, -1⟩) _ (intRange (-20) 40) (-2) (by decide)
      (fun _ _ _ => trivial)
      (fun w z h => Nat.le_trans h (countAt_le_genColumn rawH tree w _ z _))
      (fun w _ => genColumn_tree_leaf rawH tree h1 h3 w) w trivial

theorem not_noDup_of_two_le_countAt (w : World) (p : ivec3) (h : 2 ≤ w.countAt p) :
    ¬ w.NoDupPositions := by
  intro hnd
  have := countAt_le_one_of_noDup w p hnd
  omega

/-- C2 as stated fails.  In the world holding two blocks at `(0, 0, 0)`,
`removeBlock` erases only the first of them, so `blockExists` stays true.  The
same happens in the world that `generateTerrain` builds when the only tree
stands at column `(-13, -2)`: it holds two blocks at `(-11, 3, -1)`, and one is
left after `removeBlock`. -/
theorem removeBlock_duplicate_counterexample :
    ¬ (((World.mk [⟨⟨0, 0, 0⟩, DIRT⟩, ⟨⟨0, 0, 0⟩, GRASS⟩]).removeBlock ⟨0, 0, 0⟩).blockExists
          ⟨0, 0, 0⟩ = false ∧
        ∀ q, q ≠ (⟨0, 0, 0⟩ : ivec3) →
          ((World.mk [⟨⟨0, 0, 0⟩, DIRT⟩, ⟨⟨0, 0, 0⟩, GRASS⟩]).removeBlock ⟨0, 0, 0⟩).blockExists q =
            (World.mk [⟨⟨0, 0, 0⟩, DIRT⟩, ⟨⟨0, 0, 0⟩, GRASS⟩]).blockExists q) ∧
      ¬ (((World.empty.generateTerrain twoColumnHeights oneTree).removeBlock
            ⟨-11, 3, -1⟩).blockExists ⟨-11, 3, -1⟩ = false ∧
        ∀ q, q ≠ (⟨-11, 3, -1⟩ : ivec3) →
          ((World.empty.generateTerrain twoColumnHeights oneTree).removeBlock
              ⟨-11, 3, -1⟩).blockExists q =
            (World.empty.generateTerrain twoColumnHeights oneTree).blockExists q) := by
  constructor
  · intro h
    exact absurd h.1 (by decide)
  · intro h
    have h2 : 2 ≤ (World.empty.generateTerrain twoColumnHeights oneTree).countAt ⟨-11, 3, -1⟩ :=
      generateTerrain_two_blocks twoColumnHeights oneTree (by decide) (by decide) (by decide)
    have ht := (blockExists_removeBlock_self _ _).2 h2
    rw [h.1] at ht
    cases ht

/-- C8 fails on the code: whenever the column `(-13, -2)` has height 0 and
draws a tree and the column `(-11, -1)`, generated later, has height 3, the
block list of `generateTerrain` holds two blocks at `(-11, 3, -1)`: the leaf
added by the tree and the top block of the later column, which is appended
with `push_back` without an existence test.  So two blocks share a position. -/
theorem generateTerrain_duplicate (rawH : Int → Int → Int) (tree : Int → Int → Bool)
    (h1 : rawH (-13) (-2) = 0) (h2 : rawH (-11) (-1) = 3) (h3 : tree (-13) (-2) = true) :
    2 ≤ (World.empty.generateTerrain rawH tree).countAt ⟨-11, 3, -1⟩ ∧
      ¬ (World.empty.generateTerrain rawH tree).NoDupPositions :=
  ⟨generateTerrain_two_blocks rawH tree h1 h2 h3,
    not_noDup_of_two_le_countAt _ _ (generateTerrain_two_blocks rawH tree h1 h2 h3)⟩

/-- Witness for the C8 evaluation: a height map with the two columns at
heights 0 and 3 (flat sand elsewhere) and a single tree. -/
theorem generateTerrain_duplicate_witness :
    (fun x z : Int => if x = -13 ∧ z = -2 then (0 : Int) else if x = -11 ∧ z = -1 then 3 else -1)
        (-13) (-2) = 0 ∧
      (fun x z : Int => if x = -13 ∧ z = -2 then (0 : Int) else if x = -11 ∧ z = -1 then 3 else -1)
        (-11) (-1) = 3 ∧
      (fun x z : Int => decide (x = -13 ∧ z = -2)) (-13) (-2) = true ∧
      2 ≤ (World.empty.generateTerrain
        (fun x z : Int => if x = -13 ∧ z = -2 then (0 : Int) else if x = -11 ∧ z = -1 then 3 else -1)
        (fun x z : Int => decide (x = -13 ∧ z = -2))).countAt ⟨-11, 3, -1⟩ ∧
      ¬ (World.empty.generateTerrain
        (fun x z : Int => if x = -13 ∧ z = -2 then (0 : Int) else if x = -11 ∧ z = -1 then 3 else -1)
        (fun x z : Int => decide (x = -13 ∧ z = -2))).NoDupPositions :=
  ⟨by decide, by decide, by decide,
    generateTerrain_duplicate _ _ (by decide) (by decide) (by decide)⟩

end World

/-! ### The two column heights in exact arithmetic -/

theorem sin_small_bounds (y lo hi : ℝ) (hlo : 0 < lo) (h1 : lo < y) (h2 : y < hi) (h3 : hi ≤ 1) :
    lo - hi ^ 3 / 4 < Real.sin y ∧ Real.sin y < hi := by
  have hy0 : 0 < y := lt_trans hlo h1
  have hs1 := Real.sin_lt hy0
  have hs2 := Real.sin_gt_sub_cube hy0 (le_trans (le_of_lt h2) h3)
  have hc : y ^ 3 ≤ hi ^ 3 := pow_le_pow_left₀ (le_of_lt hy0) (le_of_lt h2) 3
  constructor <;> linarith

/-- In exact real arithmetic the height expression of `generateTerrain` lies in
`[0, 1)` at column `(-13, -2)` and in `[3, 4)` at column `(-11, -1)`, so its
truncation is 0 and 3 there (with margins far above single-precision error). -/
theorem terrain_height_values :
    (0 ≤ (Real.sin ((-13 : ℝ) * 0.5) + Real.cos ((-2 : ℝ) * 0.5)) * 2 ∧
        (Real.sin ((-13 : ℝ) * 0.5) + Real.cos ((-2 : ℝ) * 0.5)) * 2 < 1) ∧
      (3 ≤ (Real.sin ((-11 : ℝ) * 0.5) + Real.cos ((-1 : ℝ) * 0.5)) * 2 ∧
        (Real.sin ((-11 : ℝ) * 0.5) + Real.cos ((-1 : ℝ) * 0.5)) * 2 < 4) := by
  have hpi1 := Real.pi_gt_d6
  have hpi2 := Real.pi_lt_d6
  -- sin(-6.5) = -sin(6.5 - 2π)
  have e1 : Real.sin ((-13 : ℝ) * 0.5) = - Real.sin (6.5 - 2 * Real.pi) := by
    rw [Real.sin_sub_two_pi, ← Real.sin_neg]
    norm_num
  have b1 := sin_small_bounds (6.5 - 2 * Real.pi) 0.216814 0.216816 (by norm_num)
    (by linarith) (by linarith) (by norm_num)
  -- sin(-5.5) = sin(2π - 5.5)
  have e2 : Real.sin ((-11 : ℝ) * 0.5) = Real.sin (2 * Real.pi - 5.5) := by
    rw [Real.sin_two_pi_sub, ← Real.sin_neg]
    norm_num
  have b2 := sin_small_bounds (2 * Real.pi - 5.5) 0.783184 0.783186 (by norm_num)
    (by linarith) (by linarith) (by norm_num)
  have c1 : Real.cos ((-2 : ℝ) * 0.5) = Real.cos 1 := by
    rw [← Real.cos_neg]; norm_num
  have c2 : Real.cos ((-1 : ℝ) * 0.5) = Real.cos 0.5 := by
    rw [← Real.cos_neg]; norm_num
  have cb1 := abs_le.1 (Real.cos_bound (x := 1) (by norm_num))
  have cb2 := abs_le.1 (Real.cos_bound (x := 0.5) (by norm_num [abs_of_pos]))
  rw [e1, e2, c1, c2]
  generalize Real.sin (6.5 - 2 * Real.pi) = s1 at b1
  generalize Real.sin (2 * Real.pi - 5.5) = s2 at b2
  generalize Real.cos 1 = k1 at cb1
  generalize Real.cos 0.5 = k2 at cb2
  norm_num [abs_of_pos] at cb1 cb2 b1 b2
  refine ⟨⟨?_, ?_⟩, ?_, ?_⟩ <;> linarith [b1.1, b1.2, b2.1, b2.2, cb1.1, cb1.2, cb2.1, cb2.2]

namespace World

/-- The same duplicate for every height function that truncates the exact
value of the height expression at the two columns. -/
theorem generateTerrain_duplicate_exact (rawH : Int → Int → Int) (tree : Int → Int → Bool)
    (hA : (rawH (-13) (-2) : ℝ) ≤ (Real.sin ((-13 : ℝ) * 0.5) + Real.cos ((-2 : ℝ) * 0.5)) * 2 ∧
      (Real.sin ((-13 : ℝ) * 0.5) + Real.cos ((-2 : ℝ) * 0.5)) * 2 < (rawH (-13) (-2) : ℝ) + 1)
    (hB : (rawH (-11) (-1) : ℝ) ≤ (Real.sin ((-11 : ℝ) * 0.5) + Real.cos ((-1 : ℝ) * 0.5)) * 2 ∧
      (Real.sin ((-11 : ℝ) * 0.5) + Real.cos ((-1 : ℝ) * 0.5)) * 2 < (rawH (-11) (-1) : ℝ) + 1)
    (h3 : tree (-13) (-2) = true) :
    ¬ (World.empty.generateTerrain rawH tree).NoDupPositions := by
  obtain ⟨⟨a1, a2⟩, b1, b2⟩ := terrain_height_values
  have h1 : rawH (-13) (-2) = 0 := by
    have u : (rawH (-13) (-2) : ℝ) < 1 := lt_of_le_of_lt hA.1 a2
    have l : (-1 : ℝ) < (rawH (-13) (-2) : ℝ) := by linarith [hA.2]
    have u1 : rawH (-13) (-2) < 1 := by exact_mod_cast u
    have l1 : -1 < rawH (-13) (-2) := by exact_mod_cast l
    omega
  have h2 : rawH (-11) (-1) = 3 := by
    have u : (rawH (-11) (-1) : ℝ) < 4 := lt_of_le_of_lt hB.1 b2
    have l : (2 : ℝ) < (rawH (-11) (-1) : ℝ) := by linarith [hB.2]
    have u1 : rawH (-11) (-1) < 4 := by exact_mod_cast u
    have l1 : 2 < rawH (-11) (-1) := by exact_mod_cast l
    omega
  exact not_noDup_of_two_le_countAt _ _ (generateTerrain_two_blocks rawH tree h1 h2 h3)

end World
